import Mathlib

/-!
Verification of the page-selection and chunking core of `app.py`
(a PDF merge/split tool).

Strings are modelled as `List Char`.  Python's possibility of raising an
exception (`ValueError` from `int(...)`) is modelled with `Option`:
`none` means the Python code raises.  Sizes handled by the size-budget
planner are modelled as exact rationals (`ℚ`); the Python code uses
floating-point numbers, whose values this model idealises as exact.
-/

/-- ASCII decimal digit, the character class accepted by Python `int()`
(`Numeric_Type=Decimal`; the further decimal scripts are outside the
modelled character set). -/
def isDecimalChar (c : Char) : Bool := '0' ≤ c && c ≤ '9'

/-- Model of Python `str.isdigit` at character level: decimal digits plus
characters with `Numeric_Type=Digit` that are not decimal.  Of the latter
the model carries the Latin-1 superscripts `¹` `²` `³`; the full Unicode
table is not needed for the properties proved here. -/
def pyIsDigitChar (c : Char) : Bool :=
  isDecimalChar c || c = '¹' || c = '²' || c = '³'

/-- Python whitespace (ASCII part), as stripped by `str.strip()`. -/
def pyIsSpaceChar (c : Char) : Bool :=
  c = ' ' || c = '\t' || c = '\n' || c = '\r' || c = '\x0b' || c = '\x0c'

/-- Python `str.isdigit`: non-empty and all characters digits. -/
def pyIsdigit (s : List Char) : Bool := !s.isEmpty && s.all pyIsDigitChar

/-- Numeric value of a decimal digit string (the value `int()` returns). -/
def digitsToNat (s : List Char) : Nat :=
  s.foldl (fun acc c => acc * 10 + (c.toNat - '0'.toNat)) 0

/-- Model of Python `int(s)` on the strings reachable in `app.py` (they have
already passed `isdigit`): succeeds exactly on non-empty strings of decimal
digits, and raises `ValueError` (modelled `none`) otherwise — in particular
on digit characters such as `'²'` that satisfy `isdigit` but are not
decimal. -/
def pyInt (s : List Char) : Option Nat :=
  if !s.isEmpty && s.all isDecimalChar then some (digitsToNat s) else none

/-- Python `str.strip()`: drop leading and trailing whitespace. -/
def pyStrip (s : List Char) : List Char :=
  ((s.dropWhile pyIsSpaceChar).reverse.dropWhile pyIsSpaceChar).reverse

/-- Python `str.replace(" ", "")`: remove every space character (only the
space itself, not other whitespace). -/
def removeSpaces (s : List Char) : List Char := s.filter (fun c => c ≠ ' ')

/-- Python `str.lower()` on the characters relevant to the `"all"` guard
(ASCII case folding). -/
def pyLower (s : List Char) : List Char := s.map Char.toLower

/-- Python `str.split(sep)` for a one-character separator: e.g.
`"" ↦ [""]`, `"a,,b" ↦ ["a","","b"]`. -/
def pySplit (sep : Char) : List Char → List (List Char)
  | [] => [[]]
  | c :: rest =>
    if c = sep then [] :: pySplit sep rest
    else
      match pySplit sep rest with
      | [] => [[c]]
      | g :: gs => (c :: g) :: gs

/-- One token of `parse_page_ranges` (`app.py` lines 30–39): the pages the
token contributes to the selection set, or `none` when the Python code
raises (`int()` on a non-decimal digit string).  A dash token `a-b`
contributes `range(max(1,a) - 1, min(max_pages, b))`; a plain in-range
number `p` contributes `[p-1]`; anything else contributes nothing. -/
def mergeTokenPages (part : List Char) (n : Nat) : Option (List Nat) :=
  if part.contains '-' then
    match pySplit '-' part with
    | [p0, p1] =>
      if pyIsdigit p0 && pyIsdigit p1 then
        match pyInt p0, pyInt p1 with
        | some a, some b =>
          some (List.range' (max 1 a - 1) (min n b - (max 1 a - 1)))
        | _, _ => none
      else some []
    | _ => some []
  else if pyIsdigit part then
    match pyInt part with
    | some p => some (if 1 ≤ p && p ≤ n then [p - 1] else [])
    | none => none
  else some []

/-- The token loop of `parse_page_ranges` with its accumulated page set
(the Python `set` is modelled as the accumulated list of contributions;
the final `sorted(list(...))` deduplicates). -/
def collectMerge (tokens : List (List Char)) (n : Nat) (acc : List Nat) :
    Option (List Nat) :=
  match tokens with
  | [] => some acc
  | part :: rest =>
    if part.isEmpty then collectMerge rest n acc
    else
      match mergeTokenPages part n with
      | some ps => collectMerge rest n (acc ++ ps)
      | none => none

/-- Insert into a strictly sorted duplicate-free list, keeping it so. -/
def insertSortedDedup (p : Nat) : List Nat → List Nat
  | [] => [p]
  | q :: rest =>
    if p < q then p :: q :: rest
    else if p = q then q :: rest
    else q :: insertSortedDedup p rest

/-- Python `sorted(list(set(l)))`: the strictly ascending list of the
distinct elements of `l`. -/
def sortedSet (l : List Nat) : List Nat := l.foldr insertSortedDedup []

/-- `parse_page_ranges(range_str, max_pages)` (`app.py` lines 19–40).
Empty / whitespace-only / `"all"` (case-insensitive, after stripping)
returns all pages; otherwise spaces are removed, the string is split on
commas, and tokens contribute to a set that is returned sorted.
`none` models a `ValueError` escaping the function. -/
def parse_page_ranges (s : List Char) (n : Nat) : Option (List Nat) :=
  if pyStrip s = [] ∨ pyLower (pyStrip s) = ['a', 'l', 'l'] then
    some (List.range n)
  else
    (collectMerge (pySplit ',' (removeSpaces s)) n []).map sortedSet

/-- One token of `parse_split_ranges` (`app.py` lines 48–60): the page list
of the group this token yields, `some []` when it yields no group, `none`
when the Python code raises.  Identical to `mergeTokenPages` except that
the dash branch tests `start <= end` explicitly (`app.py` line 55). -/
def splitTokenPages (part : List Char) (n : Nat) : Option (List Nat) :=
  if part.contains '-' then
    match pySplit '-' part with
    | [p0, p1] =>
      if pyIsdigit p0 && pyIsdigit p1 then
        match pyInt p0, pyInt p1 with
        | some a, some b =>
          some (if max 1 a ≤ min n b then
                  List.range' (max 1 a - 1) (min n b - (max 1 a - 1))
                else [])
        | _, _ => none
      else some []
    | _ => some []
  else if pyIsdigit part then
    match pyInt part with
    | some p => some (if 1 ≤ p && p ≤ n then [p - 1] else [])
    | none => none
  else some []

/-- The token loop of `parse_split_ranges` with its accumulated group list
(`groups.append(pages)` only when `pages` is non-empty). -/
def collectSplit (tokens : List (List Char)) (n : Nat)
    (acc : List (List Nat)) : Option (List (List Nat)) :=
  match tokens with
  | [] => some acc
  | part :: rest =>
    if part.isEmpty then collectSplit rest n acc
    else
      match splitTokenPages part n with
      | some ps =>
        collectSplit rest n (if ps.isEmpty then acc else acc ++ [ps])
      | none => none

/-- `parse_split_ranges(range_str, max_pages)` (`app.py` lines 42–64):
spaces removed, split on commas, each token yields zero or one group,
kept in token order.  `none` models a `ValueError` escaping. -/
def parse_split_ranges (s : List Char) (n : Nat) :
    Option (List (List Nat)) :=
  collectSplit (pySplit ',' (removeSpaces s)) n []

/-- The size-budget plan computed by `app.py` lines 241–256:
pages per output file, number of output files, and whether the advisory
("one page already exceeds the target") was surfaced. -/
structure SizeBudgetPlan where
  pagesPerOutput : ℤ
  outputCount : ℤ
  advisory : Bool
deriving DecidableEq, Repr

/-- `avg_mb_per_page = file_size_mb / max_pages if max_pages > 0 else 0`
(`app.py` line 241).  Sizes are in the code's units (MB); every
comparison below is invariant under a common rescaling of the two size
inputs. -/
def avgPerPage (pageCount : Nat) (totalSize : ℚ) : ℚ :=
  if 0 < pageCount then totalSize / pageCount else 0

/-- `pages_per_file` as computed by `app.py` lines 243–249. -/
def pagesPerFile (pageCount : Nat) (totalSize target : ℚ) : ℤ :=
  if target < avgPerPage pageCount totalSize then 1
  else if 0 < avgPerPage pageCount totalSize then
    max 1 ⌊target / avgPerPage pageCount totalSize⌋
  else (pageCount : ℤ)

/-- The size-budget planner (`app.py` lines 241–251).  `none` models the
`ZeroDivisionError` raised by `math.ceil(max_pages / pages_per_file)` when
`pages_per_file = 0` (which happens for a document with zero pages). -/
def plan (pageCount : Nat) (totalSize target : ℚ) : Option SizeBudgetPlan :=
  let ppf := pagesPerFile pageCount totalSize target
  if ppf = 0 then none
  else
    some ⟨ppf, ⌈(pageCount : ℚ) / (ppf : ℚ)⌉,
          decide (target < avgPerPage pageCount totalSize)⟩

/-- The lower bound `min_value=0.1` the `st.number_input` widget enforces
on the target size (`app.py` line 236): values below it cannot be
entered. -/
def number_input_min : ℚ := 1 / 10

/-- `num_files = math.ceil(max_pages / pages_per_file)` (`app.py` line
251), as the usual natural-number ceiling division. -/
def numFiles (n k : Nat) : Nat := (n + k - 1) / k

/-- The size-split loop of `app.py` lines 266–272: output slice `i` holds
pages `range(i*k, min((i+1)*k, max_pages))`. -/
def splitBySizeBudget (n k : Nat) : List (List Nat) :=
  (List.range (numFiles n k)).map fun i =>
    List.range' (i * k) (min ((i + 1) * k) n - i * k)

/-- `writer.add_page(page)`: append one extracted page to an output. -/
def addPage {α : Type} (w : List α) (pg : α) : List α := w ++ [pg]

/-- The inner loop of `app.py` lines 206–208: a fresh writer receives
`reader.pages[p]` for each `p` of the group, in the group's order.
`pages` is the source document's page lookup. -/
def assembleGroup {α : Type} (pages : Nat → α) (g : List Nat) : List α :=
  g.foldl (fun w p => addPage w (pages p)) []

/-- The outer loop of `app.py` lines 205–214: one output document per
group, in group order. -/
def splitByGroups {α : Type} (pages : Nat → α) (groups : List (List Nat)) :
    List (List α) :=
  groups.map (assembleGroup pages)

/-! ### Helper lemmas about the string primitives -/

theorem pySplit_ne_nil (sep : Char) (s : List Char) : pySplit sep s ≠ [] := by
  cases s with
  | nil => simp [pySplit]
  | cons c rest =>
    simp only [pySplit]
    split
    · simp
    · split <;> simp

theorem pySplit_no_sep {sep : Char} :
    ∀ {s : List Char}, sep ∉ s → pySplit sep s = [s] := by
  intro s
  induction s with
  | nil => intro _; rfl
  | cons c rest ih =>
    intro h
    have hc : ¬ c = sep := by
      intro e; exact h (e ▸ List.mem_cons_self c rest)
    have hr : sep ∉ rest := fun m => h (List.mem_cons_of_mem _ m)
    simp only [pySplit, if_neg hc, ih hr]

theorem pySplit_append {sep : Char} :
    ∀ {u : List Char}, sep ∉ u → ∀ (v : List Char),
      pySplit sep (u ++ sep :: v) = u :: pySplit sep v := by
  intro u
  induction u with
  | nil => intro _ v; simp [pySplit]
  | cons c rest ih =>
    intro h v
    have hc : ¬ c = sep := by
      intro e; exact h (e ▸ List.mem_cons_self c rest)
    have hr : sep ∉ rest := fun m => h (List.mem_cons_of_mem _ m)
    simp only [List.cons_append, pySplit, if_neg hc, List.append_eq]
    rw [ih hr v]

theorem mem_of_mem_pySplit {sep : Char} :
    ∀ {s part : List Char}, part ∈ pySplit sep s →
      ∀ {c : Char}, c ∈ part → c ∈ s := by
  intro s
  induction s with
  | nil =>
    intro part hp c hc
    simp [pySplit] at hp
    subst hp
    exact absurd hc (List.not_mem_nil c)
  | cons a rest ih =>
    intro part hp c hc
    by_cases ha : a = sep
    · rw [ha] at hp ⊢
      simp [pySplit] at hp
      rcases hp with h | h
      · subst h; exact absurd hc (List.not_mem_nil c)
      · exact List.mem_cons_of_mem _ (ih h hc)
    · simp only [pySplit, if_neg ha] at hp
      rcases hsp : pySplit sep rest with _ | ⟨g, gs⟩
      · exact absurd hsp (pySplit_ne_nil sep rest)
      · rw [hsp] at hp
        rcases List.mem_cons.mp hp with h | h
        · subst h
          rcases List.mem_cons.mp hc with h | h
          · exact h ▸ List.mem_cons_self a rest
          · exact List.mem_cons_of_mem _
              (ih (hsp ▸ List.mem_cons_self g gs) h)
        · exact List.mem_cons_of_mem _ (ih (hsp ▸ List.mem_cons_of_mem _ h) hc)

theorem not_dash_of_decimal {s : List Char}
    (h : s.all isDecimalChar = true) : '-' ∉ s := by
  intro hm
  have := List.all_eq_true.mp h '-' hm
  simp [isDecimalChar] at this

theorem contains_dash_false {s : List Char}
    (h : '-' ∉ s) : s.contains '-' = false := by
  rw [Bool.eq_false_iff]
  intro hc
  exact h (List.elem_iff.mp hc)

theorem pyIsdigit_of_decimal {s : List Char} (hne : s ≠ [])
    (h : s.all isDecimalChar = true) : pyIsdigit s = true := by
  have hall : s.all pyIsDigitChar = true := by
    rw [List.all_eq_true] at h ⊢
    intro c hc
    simp [pyIsDigitChar, h c hc]
  simp [pyIsdigit, hall, List.isEmpty_iff, hne]

theorem pyInt_of_decimal {s : List Char} (hne : s ≠ [])
    (h : s.all isDecimalChar = true) : pyInt s = some (digitsToNat s) := by
  simp [pyInt, h, List.isEmpty_iff, hne]

/-! ### Helper lemmas about `sortedSet` -/

theorem mem_insertSortedDedup {p x : Nat} :
    ∀ {l : List Nat}, x ∈ insertSortedDedup p l ↔ x = p ∨ x ∈ l := by
  intro l
  induction l with
  | nil => simp [insertSortedDedup]
  | cons q rest ih =>
    simp only [insertSortedDedup]
    split
    · simp only [List.mem_cons]
    · split
      · next hq =>
        subst hq
        simp only [List.mem_cons]
        tauto
      · simp only [List.mem_cons, ih]
        tauto

theorem sorted_insertSortedDedup {p : Nat} :
    ∀ {l : List Nat}, l.Sorted (· < ·) →
      (insertSortedDedup p l).Sorted (· < ·) := by
  intro l
  induction l with
  | nil => intro _; simp [insertSortedDedup]
  | cons q rest ih =>
    intro h
    rcases List.sorted_cons.mp h with ⟨hq, hrest⟩
    simp only [insertSortedDedup]
    split
    · next hlt =>
      refine List.sorted_cons.mpr ⟨?_, h⟩
      intro b hb
      rcases List.mem_cons.mp hb with h' | h'
      · exact h' ▸ hlt
      · exact lt_trans hlt (hq b h')
    · split
      · exact h
      · next hlt hne =>
        refine List.sorted_cons.mpr ⟨?_, ih hrest⟩
        intro b hb
        rcases mem_insertSortedDedup.mp hb with h' | h'
        · subst h'
          omega
        · exact hq b h'

theorem sorted_sortedSet (l : List Nat) : (sortedSet l).Sorted (· < ·) := by
  induction l with
  | nil => simp [sortedSet]
  | cons p rest ih => exact sorted_insertSortedDedup ih

theorem mem_sortedSet {x : Nat} :
    ∀ {l : List Nat}, x ∈ sortedSet l ↔ x ∈ l := by
  intro l
  induction l with
  | nil => simp [sortedSet]
  | cons p rest ih =>
    simp only [sortedSet, List.foldr_cons, List.mem_cons]
    rw [show List.foldr insertSortedDedup [] rest = sortedSet rest from rfl]
      at *
    rw [mem_insertSortedDedup, ih]

theorem sorted_range' : ∀ (len a : Nat), (List.range' a len).Sorted (· < ·) := by
  intro len
  induction len with
  | zero => intro a; simp
  | succ m ih =>
    intro a
    rw [List.range'_succ]
    refine List.sorted_cons.mpr ⟨?_, ih (a + 1)⟩
    intro b hb
    have := List.mem_range'_1.mp hb
    omega

/-! ### Token-level lemmas -/

theorem dash_token_split {sa sb : List Char}
    (hsaD : sa.all isDecimalChar = true) (hsbD : sb.all isDecimalChar = true) :
    pySplit '-' (sa ++ '-' :: sb) = [sa, sb] := by
  rw [pySplit_append (not_dash_of_decimal hsaD) sb,
    pySplit_no_sep (not_dash_of_decimal hsbD)]

theorem dash_token_contains {sa sb : List Char} :
    (sa ++ '-' :: sb).contains '-' = true := by
  have : '-' ∈ sa ++ '-' :: sb :=
    List.mem_append_right _ (List.mem_cons_self _ _)
  exact List.elem_iff.mpr this

theorem mergeTokenPages_dash {sa sb : List Char} (hsaE : sa ≠ [])
    (hsaD : sa.all isDecimalChar = true) (hsbE : sb ≠ [])
    (hsbD : sb.all isDecimalChar = true) (n : Nat) :
    mergeTokenPages (sa ++ '-' :: sb) n =
      some (List.range' (max 1 (digitsToNat sa) - 1)
        (min n (digitsToNat sb) - (max 1 (digitsToNat sa) - 1))) := by
  simp only [mergeTokenPages, dash_token_contains, dash_token_split hsaD hsbD,
    pyIsdigit_of_decimal hsaE hsaD, pyIsdigit_of_decimal hsbE hsbD,
    pyInt_of_decimal hsaE hsaD, pyInt_of_decimal hsbE hsbD,
    Bool.and_self, if_true]

theorem splitTokenPages_dash {sa sb : List Char} (hsaE : sa ≠ [])
    (hsaD : sa.all isDecimalChar = true) (hsbE : sb ≠ [])
    (hsbD : sb.all isDecimalChar = true) (n : Nat) :
    splitTokenPages (sa ++ '-' :: sb) n =
      some (if max 1 (digitsToNat sa) ≤ min n (digitsToNat sb) then
          List.range' (max 1 (digitsToNat sa) - 1)
            (min n (digitsToNat sb) - (max 1 (digitsToNat sa) - 1))
        else []) := by
  simp only [splitTokenPages, dash_token_contains, dash_token_split hsaD hsbD,
    pyIsdigit_of_decimal hsaE hsaD, pyIsdigit_of_decimal hsbE hsbD,
    pyInt_of_decimal hsaE hsaD, pyInt_of_decimal hsbE hsbD,
    Bool.and_self, if_true]

theorem mergeTokenPages_single {sp : List Char} (hE : sp ≠ [])
    (hD : sp.all isDecimalChar = true) (n : Nat) :
    mergeTokenPages sp n =
      some (if 1 ≤ digitsToNat sp ∧ digitsToNat sp ≤ n then
          [digitsToNat sp - 1]
        else []) := by
  have hc : sp.contains '-' = false :=
    contains_dash_false (not_dash_of_decimal hD)
  simp only [mergeTokenPages, hc, Bool.false_eq_true, if_false,
    pyIsdigit_of_decimal hE hD, pyInt_of_decimal hE hD, if_true]
  congr 1
  by_cases h : 1 ≤ digitsToNat sp ∧ digitsToNat sp ≤ n
  · rw [if_pos h, if_pos]
    simpa using h
  · rw [if_neg h, if_neg]
    simpa using h

theorem splitTokenPages_single {sp : List Char} (hE : sp ≠ [])
    (hD : sp.all isDecimalChar = true) (n : Nat) :
    splitTokenPages sp n =
      some (if 1 ≤ digitsToNat sp ∧ digitsToNat sp ≤ n then
          [digitsToNat sp - 1]
        else []) := by
  have hc : sp.contains '-' = false :=
    contains_dash_false (not_dash_of_decimal hD)
  simp only [splitTokenPages, hc, Bool.false_eq_true, if_false,
    pyIsdigit_of_decimal hE hD, pyInt_of_decimal hE hD, if_true]
  congr 1
  by_cases h : 1 ≤ digitsToNat sp ∧ digitsToNat sp ≤ n
  · rw [if_pos h, if_pos]
    simpa using h
  · rw [if_neg h, if_neg]
    simpa using h

theorem mergeTokenPages_bound {part : List Char} {n : Nat} {ps : List Nat}
    (h : mergeTokenPages part n = some ps) : ∀ x ∈ ps, x < n := by
  intro x hx
  unfold mergeTokenPages at h
  split at h
  · split at h
    · split at h
      · split at h
        · next a b hab =>
          injection h with h'
          subst h'
          have := List.mem_range'_1.mp hx
          omega
        · exact absurd h (by simp)
      · injection h with h'
        subst h'
        exact absurd hx (List.not_mem_nil x)
    · injection h with h'
      subst h'
      exact absurd hx (List.not_mem_nil x)
  · split at h
    · split at h
      · next p hp =>
        injection h with h'
        subst h'
        split at hx
        · next hcond =>
          rcases List.mem_singleton.mp hx with rfl
          simp only [Bool.and_eq_true, decide_eq_true_eq] at hcond
          omega
        · exact absurd hx (List.not_mem_nil x)
      · exact absurd h (by simp)
    · injection h with h'
      subst h'
      exact absurd hx (List.not_mem_nil x)

theorem splitTokenPages_shape {part : List Char} {n : Nat} {g : List Nat}
    (h : splitTokenPages part n = some g) (hne : g ≠ []) :
    ∃ a len, 1 ≤ len ∧ a + len ≤ n ∧ g = List.range' a len := by
  unfold splitTokenPages at h
  split at h
  · split at h
    · split at h
      · split at h
        · next a b ha hb =>
          injection h with h'
          subst h'
          by_cases hle : max 1 a ≤ min n b
          · rw [if_pos hle] at hne ⊢
            exact ⟨max 1 a - 1, min n b - (max 1 a - 1), by omega, by omega,
              rfl⟩
          · rw [if_neg hle] at hne
            exact absurd rfl hne
        · exact absurd h (by simp)
      · injection h with h'
        exact absurd h'.symm hne
    · injection h with h'
      exact absurd h'.symm hne
  · split at h
    · split at h
      · next p hp =>
        injection h with h'
        subst h'
        by_cases hcond : (decide (1 ≤ p) && decide (p ≤ n)) = true
        · rw [if_pos hcond] at hne ⊢
          simp only [Bool.and_eq_true, decide_eq_true_eq] at hcond
          exact ⟨p - 1, 1, le_refl 1, by omega, rfl⟩
        · rw [if_neg hcond] at hne
          exact absurd rfl hne
      · exact absurd h (by simp)
    · injection h with h'
      exact absurd h'.symm hne

/-! ### Loop-level lemmas -/

theorem mergeTokenPages_nil (n : Nat) : mergeTokenPages [] n = some [] := rfl

theorem mem_collectMerge {n : Nat} :
    ∀ {tokens : List (List Char)} {acc l : List Nat},
      collectMerge tokens n acc = some l →
      ∀ x, x ∈ l ↔ x ∈ acc ∨ ∃ part ∈ tokens, ∃ ps,
        mergeTokenPages part n = some ps ∧ x ∈ ps := by
  intro tokens
  induction tokens with
  | nil =>
    intro acc l h x
    injection h with h'
    subst h'
    simp
  | cons part rest ih =>
    intro acc l h x
    simp only [collectMerge] at h
    by_cases hemp : part.isEmpty
    · rw [if_pos hemp] at h
      rw [ih h x]
      have hpart : part = [] := List.isEmpty_iff.mp hemp
      subst hpart
      constructor
      · rintro (h' | ⟨p, hp, ps, h1, h2⟩)
        · exact Or.inl h'
        · exact Or.inr ⟨p, List.mem_cons_of_mem _ hp, ps, h1, h2⟩
      · rintro (h' | ⟨p, hp, ps, h1, h2⟩)
        · exact Or.inl h'
        · rcases List.mem_cons.mp hp with rfl | hp'
          · rw [mergeTokenPages_nil] at h1
            injection h1 with h1'
            subst h1'
            exact absurd h2 (List.not_mem_nil x)
          · exact Or.inr ⟨p, hp', ps, h1, h2⟩
    · rw [if_neg hemp] at h
      rcases hmp : mergeTokenPages part n with _ | ps
      · rw [hmp] at h
        exact absurd h (by simp)
      · rw [hmp] at h
        rw [ih h x, List.mem_append]
        constructor
        · rintro ((h' | h') | ⟨p, hp, qs, h1, h2⟩)
          · exact Or.inl h'
          · exact Or.inr ⟨part, List.mem_cons_self _ _, ps, hmp, h'⟩
          · exact Or.inr ⟨p, List.mem_cons_of_mem _ hp, qs, h1, h2⟩
        · rintro (h' | ⟨p, hp, qs, h1, h2⟩)
          · exact Or.inl (Or.inl h')
          · rcases List.mem_cons.mp hp with rfl | hp'
            · rw [hmp] at h1
              injection h1 with h1'
              subst h1'
              exact Or.inl (Or.inr h2)
            · exact Or.inr ⟨p, hp', qs, h1, h2⟩

theorem parse_page_ranges_cases {s : List Char} {n : Nat} {l : List Nat}
    (h : parse_page_ranges s n = some l) :
    l = List.range n ∨ ∃ c, collectMerge (pySplit ',' (removeSpaces s)) n []
      = some c ∧ l = sortedSet c := by
  unfold parse_page_ranges at h
  split at h
  · injection h with h'
    exact Or.inl h'.symm
  · rcases hC : collectMerge (pySplit ',' (removeSpaces s)) n [] with _ | c
    · rw [hC] at h
      exact absurd h (by simp)
    · rw [hC] at h
      injection h with h'
      exact Or.inr ⟨c, rfl, h'.symm⟩

theorem parse_page_ranges_sorted {s : List Char} {n : Nat} {l : List Nat}
    (h : parse_page_ranges s n = some l) : l.Sorted (· < ·) := by
  rcases parse_page_ranges_cases h with h' | ⟨c, _, h'⟩
  · exact h' ▸ List.sorted_lt_range n
  · exact h' ▸ sorted_sortedSet c

theorem parse_page_ranges_bound {s : List Char} {n : Nat} {l : List Nat}
    (h : parse_page_ranges s n = some l) : ∀ x ∈ l, x < n := by
  intro x hx
  rcases parse_page_ranges_cases h with h' | ⟨c, hC, h'⟩
  · subst h'
    exact List.mem_range.mp hx
  · subst h'
    have hxc : x ∈ c := mem_sortedSet.mp hx
    rcases (mem_collectMerge hC x).mp hxc with h'' | ⟨p, _, ps, h1, h2⟩
    · exact absurd h'' (List.not_mem_nil x)
    · exact mergeTokenPages_bound h1 x h2

/-- The group (if any) one token of `parse_split_ranges` produces: `none`
for the empty token and for a token whose `pages` stays empty.  (Read off
the loop body, `app.py` lines 48–63; used to state that the loop maps
tokens independently and in order.) -/
def tokenGroup (part : List Char) (n : Nat) : Option (List Nat) :=
  if part.isEmpty then none
  else
    match splitTokenPages part n with
    | some ps => if ps.isEmpty then none else some ps
    | none => none

theorem collectSplit_eq_filterMap {n : Nat} :
    ∀ {tokens : List (List Char)} {acc gs : List (List Nat)},
      collectSplit tokens n acc = some gs →
      gs = acc ++ tokens.filterMap (fun part => tokenGroup part n) := by
  intro tokens
  induction tokens with
  | nil =>
    intro acc gs h
    injection h with h'
    subst h'
    simp
  | cons part rest ih =>
    intro acc gs h
    simp only [collectSplit] at h
    by_cases hemp : part.isEmpty
    · rw [if_pos hemp] at h
      have hpe := List.isEmpty_iff.mp hemp
      subst hpe
      rw [ih h]
      simp [List.filterMap_cons, tokenGroup]
    · rw [if_neg hemp] at h
      rcases hsp : splitTokenPages part n with _ | ps
      · rw [hsp] at h
        exact absurd h (by simp)
      · simp only [hsp] at h
        have hemp' : part ≠ [] := fun e => hemp (List.isEmpty_iff.mpr e)
        by_cases hps : ps.isEmpty
        · rw [if_pos hps] at h
          have hps' : ps = [] := List.isEmpty_iff.mp hps
          subst hps'
          rw [ih h]
          simp [List.filterMap_cons, tokenGroup, hemp', hsp]
        · rw [if_neg hps] at h
          have hps' : ps ≠ [] := fun e => hps (List.isEmpty_iff.mpr e)
          rw [ih h]
          simp [List.filterMap_cons, tokenGroup, hemp', hsp, hps',
            List.append_assoc, List.singleton_append]

theorem mem_collectSplit {n : Nat} {tokens : List (List Char)}
    {acc gs : List (List Nat)} {g : List Nat}
    (h : collectSplit tokens n acc = some gs) (hg : g ∈ gs) :
    g ∈ acc ∨ ∃ part ∈ tokens, splitTokenPages part n = some g ∧ g ≠ [] := by
  rw [collectSplit_eq_filterMap h, List.mem_append] at hg
  rcases hg with hg | hg
  · exact Or.inl hg
  · rcases List.mem_filterMap.mp hg with ⟨part, hpart, htg⟩
    unfold tokenGroup at htg
    split at htg
    · exact absurd htg (by simp)
    · split at htg
      · next ps hsp =>
        split at htg
        · exact absurd htg (by simp)
        · next hps =>
          injection htg with h'
          subst h'
          refine Or.inr ⟨part, hpart, hsp, ?_⟩
          intro he
          rw [he] at hps
          exact hps rfl
      · exact absurd htg (by simp)

/-! ### Totality on ASCII input, and the exception witness -/

theorem decimal_of_ascii_digit {c : Char} (hd : pyIsDigitChar c = true)
    (ha : c.toNat < 128) : isDecimalChar c = true := by
  simp only [pyIsDigitChar, Bool.or_eq_true, decide_eq_true_eq] at hd
  rcases hd with ((h | h) | h) | h
  · exact h
  · subst h
    exact absurd ha (by decide)
  · subst h
    exact absurd ha (by decide)
  · subst h
    exact absurd ha (by decide)

theorem pyInt_total {p : List Char} (hdig : pyIsdigit p = true)
    (hascii : ∀ c ∈ p, c.toNat < 128) : pyInt p = some (digitsToNat p) := by
  have h2 : (!p.isEmpty && p.all pyIsDigitChar) = true := hdig
  rw [Bool.and_eq_true] at h2
  rcases h2 with ⟨h3, hall⟩
  have hne : p ≠ [] := by
    intro e
    subst e
    simp at h3
  have hdec : p.all isDecimalChar = true := by
    rw [List.all_eq_true] at hall ⊢
    intro c hc
    exact decimal_of_ascii_digit (hall c hc) (hascii c hc)
  exact pyInt_of_decimal hne hdec

theorem mergeTokenPages_total {part : List Char} (n : Nat)
    (h : ∀ c ∈ part, c.toNat < 128) :
    ∃ ps, mergeTokenPages part n = some ps := by
  unfold mergeTokenPages
  split
  · split
    · next p0 p1 heq =>
      by_cases hd : (pyIsdigit p0 && pyIsdigit p1) = true
      · rw [if_pos hd]
        rw [Bool.and_eq_true] at hd
        rcases hd with ⟨hd0, hd1⟩
        have h0 : ∀ c ∈ p0, c.toNat < 128 := fun c hc =>
          h c (mem_of_mem_pySplit (heq ▸ List.mem_cons_self _ _) hc)
        have h1 : ∀ c ∈ p1, c.toNat < 128 := fun c hc =>
          h c (mem_of_mem_pySplit
            (heq ▸ List.mem_cons_of_mem _ (List.mem_cons_self _ _)) hc)
        rw [pyInt_total hd0 h0, pyInt_total hd1 h1]
        exact ⟨_, rfl⟩
      · rw [if_neg hd]
        exact ⟨[], rfl⟩
    · exact ⟨[], rfl⟩
  · by_cases hd : pyIsdigit part = true
    · rw [if_pos hd, pyInt_total hd h]
      exact ⟨_, rfl⟩
    · rw [if_neg hd]
      exact ⟨[], rfl⟩

theorem splitTokenPages_total {part : List Char} (n : Nat)
    (h : ∀ c ∈ part, c.toNat < 128) :
    ∃ ps, splitTokenPages part n = some ps := by
  unfold splitTokenPages
  split
  · split
    · next p0 p1 heq =>
      by_cases hd : (pyIsdigit p0 && pyIsdigit p1) = true
      · rw [if_pos hd]
        rw [Bool.and_eq_true] at hd
        rcases hd with ⟨hd0, hd1⟩
        have h0 : ∀ c ∈ p0, c.toNat < 128 := fun c hc =>
          h c (mem_of_mem_pySplit (heq ▸ List.mem_cons_self _ _) hc)
        have h1 : ∀ c ∈ p1, c.toNat < 128 := fun c hc =>
          h c (mem_of_mem_pySplit
            (heq ▸ List.mem_cons_of_mem _ (List.mem_cons_self _ _)) hc)
        rw [pyInt_total hd0 h0, pyInt_total hd1 h1]
        exact ⟨_, rfl⟩
      · rw [if_neg hd]
        exact ⟨[], rfl⟩
    · exact ⟨[], rfl⟩
  · by_cases hd : pyIsdigit part = true
    · rw [if_pos hd, pyInt_total hd h]
      exact ⟨_, rfl⟩
    · rw [if_neg hd]
      exact ⟨[], rfl⟩

theorem collectMerge_total {n : Nat} :
    ∀ {tokens : List (List Char)} (acc : List Nat),
      (∀ part ∈ tokens, ∀ c ∈ part, c.toNat < 128) →
      ∃ l, collectMerge tokens n acc = some l := by
  intro tokens
  induction tokens with
  | nil => intro acc _; exact ⟨acc, rfl⟩
  | cons part rest ih =>
    intro acc h
    simp only [collectMerge]
    by_cases hemp : part.isEmpty
    · rw [if_pos hemp]
      exact ih acc fun p hp => h p (List.mem_cons_of_mem _ hp)
    · rw [if_neg hemp]
      obtain ⟨ps, hps⟩ :=
        mergeTokenPages_total n (h part (List.mem_cons_self _ _))
      rw [hps]
      exact ih (acc ++ ps) fun p hp => h p (List.mem_cons_of_mem _ hp)

theorem collectSplit_total {n : Nat} :
    ∀ {tokens : List (List Char)} (acc : List (List Nat)),
      (∀ part ∈ tokens, ∀ c ∈ part, c.toNat < 128) →
      ∃ gs, collectSplit tokens n acc = some gs := by
  intro tokens
  induction tokens with
  | nil => intro acc _; exact ⟨acc, rfl⟩
  | cons part rest ih =>
    intro acc h
    simp only [collectSplit]
    by_cases hemp : part.isEmpty
    · rw [if_pos hemp]
      exact ih acc fun p hp => h p (List.mem_cons_of_mem _ hp)
    · rw [if_neg hemp]
      obtain ⟨ps, hps⟩ :=
        splitTokenPages_total n (h part (List.mem_cons_self _ _))
      rw [hps]
      exact ih _ fun p hp => h p (List.mem_cons_of_mem _ hp)

theorem tokens_ascii {s : List Char} (h : ∀ c ∈ s, c.toNat < 128) :
    ∀ part ∈ pySplit ',' (removeSpaces s), ∀ c ∈ part, c.toNat < 128 := by
  intro part hpart c hc
  have hc' : c ∈ removeSpaces s := mem_of_mem_pySplit hpart hc
  exact h c (List.mem_filter.mp hc').1

theorem parse_page_ranges_total {s : List Char} (n : Nat)
    (h : ∀ c ∈ s, c.toNat < 128) : ∃ l, parse_page_ranges s n = some l := by
  unfold parse_page_ranges
  split
  · exact ⟨_, rfl⟩
  · obtain ⟨l, hl⟩ := collectMerge_total ([] : List Nat) (tokens_ascii h)
    rw [hl]
    exact ⟨sortedSet l, rfl⟩

theorem parse_split_ranges_total {s : List Char} (n : Nat)
    (h : ∀ c ∈ s, c.toNat < 128) : ∃ gs, parse_split_ranges s n = some gs := by
  unfold parse_split_ranges
  exact collectSplit_total ([] : List (List Nat)) (tokens_ascii h)

/-! ### Malformed tokens are no-ops -/

/-- The shapes the spec calls malformed (plus out-of-range numbers): the
empty token, a dash token that does not split into exactly two digit
parts, non-digit text, and an out-of-range page number. -/
def malformedTok (n : Nat) (part : List Char) : Prop :=
  part = [] ∨
  (part.contains '-' = true ∧
    ∀ p0 p1, pySplit '-' part = [p0, p1] →
      (pyIsdigit p0 && pyIsdigit p1) = false) ∨
  (part.contains '-' = false ∧ pyIsdigit part = false) ∨
  (part.contains '-' = false ∧ part ≠ [] ∧ part.all isDecimalChar = true ∧
    ¬(1 ≤ digitsToNat part ∧ digitsToNat part ≤ n))

theorem malformed_mergeTokenPages {n : Nat} {part : List Char}
    (h : malformedTok n part) : mergeTokenPages part n = some [] := by
  rcases h with h | ⟨hc, hshape⟩ | ⟨hc, hd⟩ | ⟨hc, hne, hdec, hrange⟩
  · subst h
    rfl
  · unfold mergeTokenPages
    rw [if_pos hc]
    split
    · next p0 p1 heq =>
      rw [hshape p0 p1 heq]
      rfl
    · rfl
  · unfold mergeTokenPages
    rw [if_neg (by rw [hc]; exact Bool.false_ne_true),
      if_neg (by rw [hd]; exact Bool.false_ne_true)]
  · rw [mergeTokenPages_single hne hdec n, if_neg hrange]

theorem malformed_splitTokenPages {n : Nat} {part : List Char}
    (h : malformedTok n part) : splitTokenPages part n = some [] := by
  rcases h with h | ⟨hc, hshape⟩ | ⟨hc, hd⟩ | ⟨hc, hne, hdec, hrange⟩
  · subst h
    rfl
  · unfold splitTokenPages
    rw [if_pos hc]
    split
    · next p0 p1 heq =>
      rw [hshape p0 p1 heq]
      rfl
    · rfl
  · unfold splitTokenPages
    rw [if_neg (by rw [hc]; exact Bool.false_ne_true),
      if_neg (by rw [hd]; exact Bool.false_ne_true)]
  · rw [splitTokenPages_single hne hdec n, if_neg hrange]

theorem collectMerge_malformed {n : Nat} {m : List Char}
    (hm : malformedTok n m) :
    ∀ (pre post : List (List Char)) (acc : List Nat),
      collectMerge (pre ++ m :: post) n acc = collectMerge (pre ++ post) n acc := by
  intro pre
  induction pre with
  | nil =>
    intro post acc
    simp only [List.nil_append, collectMerge]
    by_cases hemp : m.isEmpty
    · rw [if_pos hemp]
    · rw [if_neg hemp, malformed_mergeTokenPages hm]
      simp
  | cons p rest ih =>
    intro post acc
    simp only [List.cons_append, collectMerge, List.append_eq]
    by_cases hemp : p.isEmpty
    · rw [if_pos hemp, if_pos hemp, ih post acc]
    · rw [if_neg hemp, if_neg hemp]
      rcases hmp : mergeTokenPages p n with _ | ps
      · rfl
      · exact ih post (acc ++ ps)

theorem collectSplit_malformed {n : Nat} {m : List Char}
    (hm : malformedTok n m) :
    ∀ (pre post : List (List Char)) (acc : List (List Nat)),
      collectSplit (pre ++ m :: post) n acc = collectSplit (pre ++ post) n acc := by
  intro pre
  induction pre with
  | nil =>
    intro post acc
    simp only [List.nil_append, collectSplit]
    by_cases hemp : m.isEmpty
    · rw [if_pos hemp]
    · rw [if_neg hemp, malformed_splitTokenPages hm]
      simp
  | cons p rest ih =>
    intro post acc
    simp only [List.cons_append, collectSplit, List.append_eq]
    by_cases hemp : p.isEmpty
    · rw [if_pos hemp, if_pos hemp, ih post acc]
    · rw [if_neg hemp, if_neg hemp]
      rcases hsp : splitTokenPages p n with _ | ps
      · rfl
      · exact ih post _

/-! ### Chunking lemmas -/

theorem numFiles_mul_ge (n : Nat) {k : Nat} (hk : 1 ≤ k) :
    n ≤ numFiles n k * k := by
  have h2 : (n + k - 1) / k < (n + k - 1) / k + 1 := Nat.lt_succ_self _
  have h3 := (Nat.div_lt_iff_lt_mul (show 0 < k by omega)).mp h2
  unfold numFiles
  have h4 : ((n + k - 1) / k + 1) * k = (n + k - 1) / k * k + k := by ring
  rw [h4] at h3
  generalize (n + k - 1) / k * k = m at h3 ⊢
  omega

theorem mul_lt_of_lt_numFiles {n k i : Nat} (hk : 1 ≤ k)
    (hi : i < numFiles n k) : i * k < n := by
  unfold numFiles at hi
  have h2 := (Nat.le_div_iff_mul_le (show 0 < k by omega)).mp
    (Nat.succ_le_of_lt hi)
  rw [Nat.succ_mul] at h2
  generalize i * k = m at h2 ⊢
  omega

theorem numFiles_pos {n k : Nat} (hk : 1 ≤ k) (hn : 1 ≤ n) :
    1 ≤ numFiles n k := by
  unfold numFiles
  rw [Nat.le_div_iff_mul_le (show 0 < k by omega), one_mul]
  omega

theorem splitBySizeBudget_join_aux (n k : Nat) :
    ∀ m : Nat, ((List.range m).map fun i =>
        List.range' (i * k) (min ((i + 1) * k) n - i * k)).flatten
      = List.range' 0 (min (m * k) n) := by
  intro m
  induction m with
  | zero => simp
  | succ m ih =>
    rw [List.range_succ, List.map_append, List.flatten_append, ih]
    simp only [List.map_cons, List.map_nil, List.flatten_cons,
      List.flatten_nil, List.append_nil]
    by_cases h : m * k ≤ n
    · rw [min_eq_left h]
      have happ := List.range'_append 0 (m * k)
        (min ((m + 1) * k) n - m * k) 1
      rw [Nat.zero_add, Nat.one_mul] at happ
      rw [happ]
      congr 1
      have hmk : m * k ≤ (m + 1) * k := by
        have : m ≤ m + 1 := by omega
        exact Nat.mul_le_mul_right k this
      generalize m * k = a at *
      generalize (m + 1) * k = b at *
      omega
    · have h1 : min (m * k) n = n := by omega
      have h2 : min ((m + 1) * k) n = n := by
        have hmk : m * k ≤ (m + 1) * k := by
          have : m ≤ m + 1 := by omega
          exact Nat.mul_le_mul_right k this
        generalize m * k = a at *
        generalize (m + 1) * k = b at *
        omega
      rw [h1, h2]
      have h3 : n - m * k = 0 := by omega
      rw [h3]
      simp

theorem splitBySizeBudget_join {n k : Nat} (hk : 1 ≤ k) :
    (splitBySizeBudget n k).flatten = List.range n := by
  unfold splitBySizeBudget
  rw [splitBySizeBudget_join_aux n k (numFiles n k), List.range_eq_range']
  congr 1
  have := numFiles_mul_ge n hk
  generalize numFiles n k * k = m at *
  omega

theorem splitBySizeBudget_length (n k : Nat) :
    (splitBySizeBudget n k).length = numFiles n k := by
  simp [splitBySizeBudget]

theorem splitBySizeBudget_get {n k i : Nat} (hi : i < numFiles n k) :
    (splitBySizeBudget n k).get? i =
      some (List.range' (i * k) (min ((i + 1) * k) n - i * k)) := by
  unfold splitBySizeBudget
  rw [List.get?_map, List.get?_range hi]
  rfl

theorem numFiles_eq_ceil {n k : Nat} (hk : 1 ≤ k) :
    (numFiles n k : ℤ) = ⌈(n : ℚ) / (k : ℚ)⌉ := by
  have hk0 : (0 : ℚ) < (k : ℚ) := by exact_mod_cast hk
  symm
  rw [Int.ceil_eq_iff]
  constructor
  · rcases Nat.eq_zero_or_pos n with rfl | hn
    · have h0 : numFiles 0 k = 0 := by
        unfold numFiles
        exact Nat.div_eq_of_lt (by omega)
      rw [h0]
      norm_num
    · have hq1 : 1 ≤ numFiles n k := numFiles_pos hk hn
      have h2 : (numFiles n k - 1) * k < n :=
        mul_lt_of_lt_numFiles hk (by omega)
      rw [lt_div_iff hk0]
      have h2' : (((numFiles n k - 1) * k : Nat) : ℚ) < (n : ℚ) := by
        exact_mod_cast h2
      push_cast [Nat.cast_sub hq1] at h2'
      push_cast
      linarith
  · rw [div_le_iff hk0]
    have h := numFiles_mul_ge n hk
    calc (n : ℚ) ≤ ((numFiles n k * k : Nat) : ℚ) := by exact_mod_cast h
    _ = ((numFiles n k : ℤ) : ℚ) * k := by push_cast; ring

theorem assembleGroup_eq_map {α : Type} (pages : Nat → α) (g : List Nat) :
    assembleGroup pages g = g.map pages := by
  have haux : ∀ (h : List Nat) (w : List α),
      h.foldl (fun w p => addPage w (pages p)) w = w ++ h.map pages := by
    intro h
    induction h with
    | nil => intro w; simp
    | cons p rest ih =>
      intro w
      rw [List.foldl_cons, ih (addPage w (pages p))]
      simp [addPage, List.append_assoc]
  simpa using haux g []

/-! ### Planner lemmas -/

theorem avgPerPage_pos_pageCount {n : Nat} (hn : 1 ≤ n) (ts : ℚ) :
    avgPerPage n ts = ts / (n : ℚ) := by
  unfold avgPerPage
  rw [if_pos]
  omega

theorem pagesPerFile_pos {n : Nat} (hn : 1 ≤ n) (ts tg : ℚ) :
    1 ≤ pagesPerFile n ts tg := by
  unfold pagesPerFile
  split
  · exact le_refl 1
  · split
    · exact le_max_left 1 _
    · exact_mod_cast hn

theorem plan_eq_of_pos {n : Nat} (hn : 1 ≤ n) (ts tg : ℚ) :
    plan n ts tg = some ⟨pagesPerFile n ts tg,
      ⌈(n : ℚ) / ((pagesPerFile n ts tg : ℤ) : ℚ)⌉,
      decide (tg < avgPerPage n ts)⟩ := by
  unfold plan
  rw [if_neg]
  have := pagesPerFile_pos hn ts tg
  omega

/-! ### The claims -/

/-- C1: whenever `parse_page_ranges` returns a list, that list is strictly
ascending, has no duplicate, and every element lies in `[0, pageCount)`;
in particular `"1,1,2-3"` with pageCount 5 yields exactly `[0, 1, 2]`. -/
theorem C1_parse_sorted_nodup_bounded (s : List Char) (n : Nat)
    (l : List Nat) (h : parse_page_ranges s n = some l) :
    l.Sorted (· < ·) ∧ l.Nodup ∧ (∀ x ∈ l, x < n) ∧
      parse_page_ranges "1,1,2-3".toList 5 = some [0, 1, 2] :=
  ⟨parse_page_ranges_sorted h, (parse_page_ranges_sorted h).nodup,
   parse_page_ranges_bound h, by decide⟩

/-- Witness for C1 at the concrete input `"4,2,9"` with pageCount 5. -/
theorem C1_parse_sorted_nodup_bounded_witness :
    List.Sorted (· < ·) [1, 3] ∧ ([1, 3] : List Nat).Nodup ∧
      (∀ x ∈ ([1, 3] : List Nat), x < 5) ∧
      parse_page_ranges "1,1,2-3".toList 5 = some [0, 1, 2] :=
  C1_parse_sorted_nodup_bounded "4,2,9".toList 5 [1, 3] (by decide)

/-- C2: for every pageCount ≥ 1, `parse_page_ranges` applied to the empty
string, to a whitespace-only string, or to the literal token "all" in any
letter case returns the full ascending list `[0, 1, …, pageCount-1]`. -/
theorem C2_blank_or_all_gives_all_pages (n : Nat) (hn : 1 ≤ n)
    (s : List Char) (hs : ∀ c ∈ s, pyIsSpaceChar c = true)
    (c1 c2 c3 : Char) (hc1 : c1 = 'a' ∨ c1 = 'A')
    (hc2 : c2 = 'l' ∨ c2 = 'L') (hc3 : c3 = 'l' ∨ c3 = 'L') :
    parse_page_ranges [] n = some (List.range n) ∧
    parse_page_ranges s n = some (List.range n) ∧
    parse_page_ranges [c1, c2, c3] n = some (List.range n) := by
  refine ⟨rfl, ?_, ?_⟩
  · have hstrip : pyStrip s = [] := by
      unfold pyStrip
      rw [List.dropWhile_eq_nil_iff.mpr hs]
      rfl
    unfold parse_page_ranges
    rw [if_pos (Or.inl hstrip)]
  · rcases hc1 with rfl | rfl <;> rcases hc2 with rfl | rfl <;>
      rcases hc3 with rfl | rfl <;> rfl

/-- Witness for C2 at pageCount 3, whitespace string, and the case
variant "ALl". -/
theorem C2_blank_or_all_gives_all_pages_witness :
    parse_page_ranges [] 3 = some (List.range 3) ∧
    parse_page_ranges [' ', '\t'] 3 = some (List.range 3) ∧
    parse_page_ranges ['A', 'L', 'l'] 3 = some (List.range 3) :=
  C2_blank_or_all_gives_all_pages 3 (by decide) [' ', '\t'] (by decide)
    'A' 'L' 'l' (Or.inr rfl) (Or.inr rfl) (Or.inl rfl)

/-- C3: a dash token `a-b` (both sides positive decimal numbers)
contributes exactly the clamped inclusive range: with `a' = max 1 a` and
`b' = min pageCount b` it contributes nothing when `a' > b'` and otherwise
the zero-based indices `a'-1 … b'-1`; the overall result of
`parse_page_ranges` is the deduplicated union of the token contributions,
returned ascending. -/
theorem C3_dash_token_and_union (n a b : Nat) (ha : 1 ≤ a) (hb : 1 ≤ b)
    (sa sb : List Char)
    (hsaE : sa ≠ []) (hsaD : sa.all isDecimalChar = true)
    (hva : digitsToNat sa = a)
    (hsbE : sb ≠ []) (hsbD : sb.all isDecimalChar = true)
    (hvb : digitsToNat sb = b) :
    (mergeTokenPages (sa ++ '-' :: sb) n =
      some (List.range' (max 1 a - 1) (min n b - (max 1 a - 1)))) ∧
    (∀ x, x ∈ List.range' (max 1 a - 1) (min n b - (max 1 a - 1)) ↔
      max 1 a ≤ min n b ∧ max 1 a - 1 ≤ x ∧ x ≤ min n b - 1) ∧
    (∀ tokens acc l, collectMerge tokens n acc = some l →
      ∀ x, (x ∈ l ↔ x ∈ acc ∨ ∃ part ∈ tokens, ∃ ps,
        mergeTokenPages part n = some ps ∧ x ∈ ps)) ∧
    (∀ s l, parse_page_ranges s n = some l → l.Sorted (· < ·) ∧ l.Nodup) := by
  refine ⟨?_, ?_, ?_, ?_⟩
  · rw [mergeTokenPages_dash hsaE hsaD hsbE hsbD n, hva, hvb]
  · intro x
    rw [List.mem_range'_1]
    omega
  · intro tokens acc l h x
    exact mem_collectMerge h x
  · intro s l h
    exact ⟨parse_page_ranges_sorted h, (parse_page_ranges_sorted h).nodup⟩

/-- Witness for C3 with the token "2-3" and pageCount 5. -/
theorem C3_dash_token_and_union_witness :
    (mergeTokenPages (['2'] ++ '-' :: ['3']) 5 =
      some (List.range' (max 1 2 - 1) (min 5 3 - (max 1 2 - 1)))) ∧
    (∀ x, x ∈ List.range' (max 1 2 - 1) (min 5 3 - (max 1 2 - 1)) ↔
      max 1 2 ≤ min 5 3 ∧ max 1 2 - 1 ≤ x ∧ x ≤ min 5 3 - 1) ∧
    (∀ tokens acc l, collectMerge tokens 5 acc = some l →
      ∀ x, (x ∈ l ↔ x ∈ acc ∨ ∃ part ∈ tokens, ∃ ps,
        mergeTokenPages part 5 = some ps ∧ x ∈ ps)) ∧
    (∀ s l, parse_page_ranges s 5 = some l → l.Sorted (· < ·) ∧ l.Nodup) :=
  C3_dash_token_and_union 5 2 3 (by decide) (by decide) ['2'] ['3']
    (by decide) (by decide) (by decide) (by decide) (by decide) (by decide)

/-- C4 counterexample: the claim "parse never raises for any input string
whatsoever" fails — the one-character token `'²'` passes `str.isdigit`
but `int` on it raises `ValueError`, which escapes both parsers
(modelled by `none`). -/
theorem C4_counterexample : parse_page_ranges ['²'] 5 = none ∧
    parse_split_ranges ['²'] 5 = none := by decide

/-- C4 (amended): on strings of ASCII characters both parsers return
normally, and a malformed token (empty, bad dash shape, non-digit text,
or out-of-range number) is a no-op that only removes its own contribution
and never affects the other tokens' contributions. -/
theorem C4_malformed_noop_ascii_total (n : Nat) (acc : List Nat)
    (gacc : List (List Nat)) (pre post : List (List Char)) (m : List Char)
    (hm : malformedTok n m) (s : List Char)
    (hascii : ∀ c ∈ s, c.toNat < 128) :
    collectMerge (pre ++ m :: post) n acc = collectMerge (pre ++ post) n acc ∧
    collectSplit (pre ++ m :: post) n gacc
      = collectSplit (pre ++ post) n gacc ∧
    (∃ l, parse_page_ranges s n = some l) ∧
    (∃ gs, parse_split_ranges s n = some gs) :=
  ⟨collectMerge_malformed hm pre post acc,
   collectSplit_malformed hm pre post gacc,
   parse_page_ranges_total n hascii,
   parse_split_ranges_total n hascii⟩

/-- Witness for C4 (amended): the malformed token "x" inserted between
"1" and "2-3" is a no-op, and the ASCII string "1,2" parses. -/
theorem C4_malformed_noop_ascii_total_witness :
    collectMerge ([['1']] ++ ['x'] :: [['2', '-', '3']]) 5 []
      = collectMerge ([['1']] ++ [['2', '-', '3']]) 5 [] ∧
    collectSplit ([['1']] ++ ['x'] :: [['2', '-', '3']]) 5 []
      = collectSplit ([['1']] ++ [['2', '-', '3']]) 5 [] ∧
    (∃ l, parse_page_ranges "1,2".toList 5 = some l) ∧
    (∃ gs, parse_split_ranges "1,2".toList 5 = some gs) :=
  C4_malformed_noop_ascii_total 5 [] [] [['1']] [['2', '-', '3']] ['x']
    (Or.inr (Or.inr (Or.inl ⟨by decide, by decide⟩))) ("1,2".toList)
    (by decide)

/-- C5: `parse_split_ranges` maps each comma token independently to zero
or one group keeping token order; an in-range single page yields a
one-element group, a dash range with clamped start ≤ clamped end yields
the clamped inclusive range as one group, and a malformed or
clamped-invalid token yields no group; the two concrete examples of the
spec hold. -/
theorem C5_split_groups_per_token (n p a b : Nat) (sp sa sb : List Char)
    (hspE : sp ≠ []) (hspD : sp.all isDecimalChar = true)
    (hvp : digitsToNat sp = p) (hp : 1 ≤ p ∧ p ≤ n)
    (hsaE : sa ≠ []) (hsaD : sa.all isDecimalChar = true)
    (hva : digitsToNat sa = a)
    (hsbE : sb ≠ []) (hsbD : sb.all isDecimalChar = true)
    (hvb : digitsToNat sb = b) :
    splitTokenPages sp n = some [p - 1] ∧
    splitTokenPages (sa ++ '-' :: sb) n =
      some (if max 1 a ≤ min n b then
          List.range' (max 1 a - 1) (min n b - (max 1 a - 1))
        else []) ∧
    (∀ tokens acc gs, collectSplit tokens n acc = some gs →
      gs = acc ++ tokens.filterMap (fun part => tokenGroup part n)) ∧
    parse_split_ranges "1-5,6-10,11".toList 12 =
      some [[0, 1, 2, 3, 4], [5, 6, 7, 8, 9], [10]] ∧
    parse_split_ranges "99".toList 10 = some [] := by
  refine ⟨?_, ?_, ?_, by decide, by decide⟩
  · rw [splitTokenPages_single hspE hspD n, hvp, if_pos hp]
  · rw [splitTokenPages_dash hsaE hsaD hsbE hsbD n, hva, hvb]
  · intro tokens acc gs h
    exact collectSplit_eq_filterMap h

/-- Witness for C5 with single token "2", dash token "1-5", and
pageCount 12. -/
theorem C5_split_groups_per_token_witness :
    splitTokenPages ['2'] 12 = some [2 - 1] ∧
    splitTokenPages (['1'] ++ '-' :: ['5']) 12 =
      some (if max 1 1 ≤ min 12 5 then
          List.range' (max 1 1 - 1) (min 12 5 - (max 1 1 - 1))
        else []) ∧
    (∀ tokens acc gs, collectSplit tokens 12 acc = some gs →
      gs = acc ++ tokens.filterMap (fun part => tokenGroup part 12)) ∧
    parse_split_ranges "1-5,6-10,11".toList 12 =
      some [[0, 1, 2, 3, 4], [5, 6, 7, 8, 9], [10]] ∧
    parse_split_ranges "99".toList 10 = some [] :=
  C5_split_groups_per_token 12 2 1 5 ['2'] ['1'] ['5'] (by decide)
    (by decide) (by decide) (by decide) (by decide) (by decide) (by decide)
    (by decide) (by decide) (by decide)

/-- C6: for pageCount ≥ 1, totalSize ≥ 0 and target > 0, the planner sets
pagesPerOutput to 1 with the advisory when the average page size exceeds
the target, to `max 1 ⌊target / avg⌋` when the average is positive, and
to pageCount otherwise, and always sets outputCount to
`⌈pageCount / pagesPerOutput⌉`; the spec's concrete example holds. -/
theorem C6_size_budget_planner (n : Nat) (ts tg : ℚ) (hn : 1 ≤ n)
    (hts : 0 ≤ ts) (htg : 0 < tg) :
    (∃ p, plan n ts tg = some p ∧
      p.outputCount = ⌈(n : ℚ) / (p.pagesPerOutput : ℚ)⌉ ∧
      p.advisory = decide (tg < ts / (n : ℚ)) ∧
      (tg < ts / (n : ℚ) → p.pagesPerOutput = 1 ∧ p.advisory = true) ∧
      (¬tg < ts / (n : ℚ) → 0 < ts / (n : ℚ) →
        p.pagesPerOutput = max 1 ⌊tg / (ts / (n : ℚ))⌋) ∧
      (¬tg < ts / (n : ℚ) → ¬0 < ts / (n : ℚ) →
        p.pagesPerOutput = (n : ℤ))) ∧
    plan 100 20000000 2000000 = some ⟨10, 10, false⟩ := by
  constructor
  · have havg := avgPerPage_pos_pageCount hn ts
    refine ⟨_, plan_eq_of_pos hn ts tg, rfl, by rw [havg], ?_, ?_, ?_⟩
    · intro h
      constructor
      · show pagesPerFile n ts tg = 1
        unfold pagesPerFile
        rw [havg, if_pos h]
      · show decide (tg < avgPerPage n ts) = true
        rw [havg]
        exact decide_eq_true h
    · intro h1 h2
      show pagesPerFile n ts tg = max 1 ⌊tg / (ts / (n : ℚ))⌋
      unfold pagesPerFile
      rw [havg, if_neg h1, if_pos h2]
    · intro h1 h2
      show pagesPerFile n ts tg = (n : ℤ)
      unfold pagesPerFile
      rw [havg, if_neg h1, if_neg h2]
  · norm_num [plan, pagesPerFile, avgPerPage]

/-- Witness for C6 at the spec example `plan 100 20000000 2000000`. -/
theorem C6_size_budget_planner_witness :
    ((∃ p, plan 100 20000000 2000000 = some p ∧
      p.outputCount = ⌈((100 : Nat) : ℚ) / (p.pagesPerOutput : ℚ)⌉ ∧
      p.advisory = decide ((2000000 : ℚ) < 20000000 / ((100 : Nat) : ℚ)) ∧
      ((2000000 : ℚ) < 20000000 / ((100 : Nat) : ℚ) →
        p.pagesPerOutput = 1 ∧ p.advisory = true) ∧
      (¬(2000000 : ℚ) < 20000000 / ((100 : Nat) : ℚ) →
        (0 : ℚ) < 20000000 / ((100 : Nat) : ℚ) →
        p.pagesPerOutput
          = max 1 ⌊(2000000 : ℚ) / (20000000 / ((100 : Nat) : ℚ))⌋) ∧
      (¬(2000000 : ℚ) < 20000000 / ((100 : Nat) : ℚ) →
        ¬(0 : ℚ) < 20000000 / ((100 : Nat) : ℚ) →
        p.pagesPerOutput = ((100 : Nat) : ℤ))) ∧
    plan 100 20000000 2000000 = some ⟨10, 10, false⟩) :=
  C6_size_budget_planner 100 20000000 2000000 (by norm_num) (by norm_num)
    (by norm_num)

/-- C7 counterexample: for pageCount 0 the planner is not stopped before
planning — it computes `pages_per_file = 0` and the `num_files`
computation divides by zero (modelled `none`). -/
theorem C7_counterexample : pagesPerFile 0 5 2 = 0 ∧ plan 0 5 2 = none := by
  norm_num [plan, pagesPerFile, avgPerPage]

/-- C7 (amended): a non-positive target budget cannot reach the planner
because the input widget enforces the minimum 0.1; a zero pageCount is
not rejected (see the counterexample), while for pageCount ≥ 1 planning
always completes with pagesPerOutput ≥ 1. -/
theorem C7_budget_preconditions (t : ℚ) (ht : number_input_min ≤ t)
    (n : Nat) (hn : 1 ≤ n) (ts tg : ℚ) :
    0 < t ∧ ∃ p, plan n ts tg = some p ∧ 1 ≤ p.pagesPerOutput :=
  ⟨lt_of_lt_of_le (by norm_num [number_input_min]) ht,
   ⟨_, plan_eq_of_pos hn ts tg, pagesPerFile_pos hn ts tg⟩⟩

/-- Witness for C7 (amended) at target 1, pageCount 2, sizes 0 and 3. -/
theorem C7_budget_preconditions_witness :
    (0 : ℚ) < 1 ∧ ∃ p, plan 2 0 3 = some p ∧ 1 ≤ p.pagesPerOutput :=
  C7_budget_preconditions 1 (by norm_num [number_input_min]) 2 (by norm_num)
    0 3

/-- C8: for pageCount ≥ 1 and pagesPerOutput ≥ 1 the size split
partitions `[0, pageCount)` into contiguous ascending slices of length
pagesPerOutput with only the last possibly shorter, produces exactly
`⌈pageCount / pagesPerOutput⌉` artifacts, and the page counts sum to
pageCount; 23 pages at 5 per output yield sizes `[5, 5, 5, 5, 3]`. -/
theorem C8_splitBySizeBudget_partition (n k : Nat) (hn : 1 ≤ n)
    (hk : 1 ≤ k) :
    (splitBySizeBudget n k).length = numFiles n k ∧
    ((splitBySizeBudget n k).length : ℤ) = ⌈(n : ℚ) / (k : ℚ)⌉ ∧
    (splitBySizeBudget n k).flatten = List.range n ∧
    (∀ i, i < numFiles n k → (splitBySizeBudget n k).get? i =
      some (List.range' (i * k) (min ((i + 1) * k) n - i * k))) ∧
    (∀ i, i + 1 < numFiles n k → (splitBySizeBudget n k).get? i =
      some (List.range' (i * k) k)) ∧
    (∀ g ∈ splitBySizeBudget n k, 1 ≤ g.length ∧ g.length ≤ k) ∧
    ((splitBySizeBudget n k).map List.length).sum = n ∧
    (splitBySizeBudget 23 5).map List.length = [5, 5, 5, 5, 3] := by
  refine ⟨splitBySizeBudget_length n k, ?_, splitBySizeBudget_join hk,
    fun i hi => splitBySizeBudget_get hi, ?_, ?_, ?_, by decide⟩
  · rw [splitBySizeBudget_length]
    exact numFiles_eq_ceil hk
  · intro i hi
    rw [splitBySizeBudget_get (by omega)]
    have h2 : (i + 1) * k < n := mul_lt_of_lt_numFiles hk hi
    have h3 : (i + 1) * k = i * k + k := by ring
    rw [h3] at h2 ⊢
    have h4 : min (i * k + k) n - i * k = k := by
      generalize i * k = m at h2 ⊢
      omega
    rw [h4]
  · intro g hg
    unfold splitBySizeBudget at hg
    rcases List.mem_map.mp hg with ⟨i, hi, rfl⟩
    have hi' : i < numFiles n k := List.mem_range.mp hi
    have h2 : i * k < n := mul_lt_of_lt_numFiles hk hi'
    have h3 : (i + 1) * k = i * k + k := by ring
    rw [List.length_range', h3]
    generalize i * k = m at h2 ⊢
    omega
  · rw [← List.length_flatten, splitBySizeBudget_join hk, List.length_range]

/-- Witness for C8 at 23 pages, 5 pages per output. -/
theorem C8_splitBySizeBudget_partition_witness :
    (splitBySizeBudget 23 5).length = numFiles 23 5 ∧
    ((splitBySizeBudget 23 5).length : ℤ) = ⌈((23 : Nat) : ℚ) / ((5 : Nat) : ℚ)⌉ ∧
    (splitBySizeBudget 23 5).flatten = List.range 23 ∧
    (∀ i, i < numFiles 23 5 → (splitBySizeBudget 23 5).get? i =
      some (List.range' (i * 5) (min ((i + 1) * 5) 23 - i * 5))) ∧
    (∀ i, i + 1 < numFiles 23 5 → (splitBySizeBudget 23 5).get? i =
      some (List.range' (i * 5) 5)) ∧
    (∀ g ∈ splitBySizeBudget 23 5, 1 ≤ g.length ∧ g.length ≤ 5) ∧
    ((splitBySizeBudget 23 5).map List.length).sum = 23 ∧
    (splitBySizeBudget 23 5).map List.length = [5, 5, 5, 5, 3] :=
  C8_splitBySizeBudget_partition 23 5 (by decide) (by decide)

/-- C9: the range split produces one artifact per group, in group order,
each containing exactly its group's pages in the order listed in the
group — not re-sorted and with duplicates preserved, as the group
`[4, 4, 2]` shows. -/
theorem C9_splitByGroups_order_preserved {α : Type} (pages : Nat → α)
    (groups : List (List Nat)) :
    (splitByGroups pages groups).length = groups.length ∧
    (∀ i, (splitByGroups pages groups).get? i =
      (groups.get? i).map fun g => g.map pages) ∧
    assembleGroup pages [4, 4, 2] = [pages 4, pages 4, pages 2] := by
  refine ⟨by simp [splitByGroups], ?_, ?_⟩
  · intro i
    unfold splitByGroups
    rw [List.get?_map]
    cases groups.get? i with
    | none => rfl
    | some g => simp [assembleGroup_eq_map]
  · rw [assembleGroup_eq_map]
    rfl

/-- C10: every group returned by `parse_split_ranges` is a non-empty,
strictly increasing, contiguous run of indices inside `[0, pageCount)`. -/
theorem C10_split_groups_contiguous (s : List Char) (n : Nat)
    (gs : List (List Nat)) (g : List Nat)
    (hp : parse_split_ranges s n = some gs) (hg : g ∈ gs) :
    g ≠ [] ∧ (∃ a len, 1 ≤ len ∧ a + len ≤ n ∧ g = List.range' a len) ∧
      g.Sorted (· < ·) ∧ g.Nodup ∧ ∀ x ∈ g, x < n := by
  unfold parse_split_ranges at hp
  rcases mem_collectSplit hp hg with h | ⟨part, _, hsp, hne⟩
  · exact absurd h (List.not_mem_nil g)
  · obtain ⟨a, len, hlen, hsum, hgr⟩ := splitTokenPages_shape hsp hne
    subst hgr
    refine ⟨hne, ⟨a, len, hlen, hsum, rfl⟩, sorted_range' len a,
      (sorted_range' len a).nodup, ?_⟩
    intro x hx
    have := List.mem_range'_1.mp hx
    omega

/-- Witness for C10: the group `[1, 2]` of "2-3" with pageCount 5. -/
theorem C10_split_groups_contiguous_witness :
    ([1, 2] : List Nat) ≠ [] ∧
    (∃ a len, 1 ≤ len ∧ a + len ≤ 5 ∧
      ([1, 2] : List Nat) = List.range' a len) ∧
    List.Sorted (· < ·) ([1, 2] : List Nat) ∧
    ([1, 2] : List Nat).Nodup ∧ ∀ x ∈ ([1, 2] : List Nat), x < 5 :=
  C10_split_groups_contiguous "2-3".toList 5 [[1, 2]] [1, 2] (by decide)
    (by decide)
